import Mathlib

/-!
Verification of the dcrros chain-to-Rosetta operation mapper and the
server notification queue, as a shallow embedding of `types/block.go` and
`backend/server.go`.

Bytes are `Nat` values below 256, byte strings are `List Nat`, account
strings are Lean `String`s, amounts (`dcrutil.Amount`, `int64`) are `Int`.
Hashes only matter as identities here, so they are embedded as `Nat`.

External collaborators that the repository only calls are abstracted:
`txscript.ExtractPkScriptAddrs` becomes an explicit `Extractor` function
argument, `stake.IsSSGen` becomes the `ssgen` field of `MsgTx`, and
`BlockHeader.BlockHash()` becomes a `BlockHeader → Nat` argument.
-/

namespace Dcrros

/-- Transaction tree of regular transactions (`wire.TxTreeRegular`, int8 0). -/
def TxTreeRegular : Int := 0

/-- Transaction tree of stake transactions (`wire.TxTreeStake`, int8 1). -/
def TxTreeStake : Int := 1

/-- Embedding of `wire.OutPoint`: reference to a previous output.  The 32-byte hash is
embedded as a `Nat` identity. -/
structure OutPoint where
  hash : Nat
  index : Nat
  tree : Int
deriving DecidableEq, Repr

/-- Embedding of `wire.TxIn`, reduced to the field the mapper reads (`PreviousOutPoint`).
The remaining fields (sequence, signature script, ...) only flow into
operation metadata, which no claim mentions. -/
structure TxIn where
  previousOutPoint : OutPoint
deriving DecidableEq, Repr

/-- Embedding of `wire.TxOut`. -/
structure TxOut where
  value : Int
  version : Nat
  pkScript : List Nat
deriving DecidableEq, Repr

/-- Embedding of `wire.MsgTx`.  The `ssgen` field records the verdict of the external
`stake.IsSSGen` classifier on this transaction. -/
structure MsgTx where
  txIn : List TxIn
  txOut : List TxOut
  ssgen : Bool
deriving DecidableEq, Repr

/-- Embedding of `wire.BlockHeader`, reduced to the fields the mapper reads. -/
structure BlockHeader where
  voteBits : Nat
  height : Nat
  prevBlock : Nat
deriving DecidableEq, Repr

/-- Embedding of `wire.MsgBlock`: header plus regular and stake transaction trees. -/
structure MsgBlock where
  header : BlockHeader
  transactions : List MsgTx
  sTransactions : List MsgTx
deriving DecidableEq, Repr

/-- Embedding of `types.PrevInput`. -/
structure PrevInput where
  pkScript : List Nat
  version : Nat
  amount : Int
deriving DecidableEq, Repr

/-- Modelled from the spec: the repository's `OpStatus` values
(`OpStatusSuccess`, `OpStatusReversed`) are declared in a `types` file not
present under `src/`; spec §3 gives status as success or reversed. -/
inductive OpStatus
  | success
  | reversed
deriving DecidableEq, Repr

/-- Modelled from the spec: the repository's `OpType` values
(`OpTypeDebit`, `OpTypeCredit`) are declared in a `types` file not present
under `src/`; spec §3 gives type as debit or credit. -/
inductive OpType
  | debit
  | credit
deriving DecidableEq, Repr

/-- Errors surfaced by the mapper.  `fetchErr` stands for an error value
returned by the previous-input fetcher and propagated unchanged;
`scriptErr` wraps an address-extractor error. -/
inductive Err
  | needsPreviousBlock
  | missingPrevInput (o : OutPoint)
  | scriptErr (s : String)
  | fetchErr (s : String)
deriving DecidableEq, Repr

/-- Embedding of `types.Op`: the (in Go, mutable and reused) operation record, captured
at the moment `applyOp` is invoked.  Debits carry `txin`/`prevInput` and
`out = none`; credits carry `out` and `txin = prevInput = none`, mirroring
the resets in `iterateBlockOpsInTx`. -/
structure Op where
  tree : Int
  status : OpStatus
  tx : MsgTx
  txIndex : Int
  ioIndex : Nat
  account : String
  type : OpType
  opIndex : Nat
  amount : Int
  txin : Option TxIn
  out : Option TxOut
  prevInput : Option PrevInput
deriving DecidableEq, Repr

/-- ASCII code of the lowercase hex digit for `n < 16` (Go's
`hextable = "0123456789abcdef"`). -/
def hexDigit (n : Nat) : Nat :=
  if n < 10 then 48 + n else 87 + n

/-- Embedding of `hex.Encode`: two lowercase hex digits per byte. -/
def hexEncode : List Nat → List Nat
  | [] => []
  | b :: rest => hexDigit (b % 256 / 16) :: hexDigit (b % 16) :: hexEncode rest

/-- Byte list to string, each byte an ASCII character (Go `string(bytes)`
on ASCII data). -/
def bytesToString (l : List Nat) : String :=
  String.mk (l.map Char.ofNat)

/-- Embedding of `rawPkScriptToAccountAddr` (block.go lines 44-52): `"0"`, `"x"`, the
hex of the big-endian 2-byte version, then the hex of the pkScript. -/
def rawPkScriptToAccountAddr (version : Nat) (pkScript : List Nat) : String :=
  bytesToString (48 :: 120 :: (hexEncode [version / 256 % 256, version % 256] ++ hexEncode pkScript))

/-- Abstraction of `txscript.ExtractPkScriptAddrs` (external library):
what the mapper consumes from it is either an error or the list of
extracted addresses in their textual form. -/
def Extractor := Nat → List Nat → Except String (List String)

/-- Embedding of `dcrPkScriptToAccountAddr` (block.go lines 54-75). -/
def dcrPkScriptToAccountAddr (extract : Extractor) (version : Nat) (pkScript : List Nat) :
    Except String String :=
  if version ≠ 0 then .ok (rawPkScriptToAccountAddr version pkScript)
  else
    match extract version pkScript with
    | .error e => .error e
    | .ok [a] => .ok a
    | .ok _ => .ok (rawPkScriptToAccountAddr version pkScript)

/-- Embedding of `types.PrevInputsFetcher`: the Go map is embedded as an association
list. -/
def PrevInputsFetcher := List OutPoint → Except Err (List (OutPoint × PrevInput))

/-- Lookup in the fetched previous-input association list (Go map
indexing `prevInputs[in.PreviousOutPoint]`). -/
def lookupPrevInput : List (OutPoint × PrevInput) → OutPoint → Option PrevInput
  | [], _ => none
  | (k, v) :: rest, o => if k = o then some v else lookupPrevInput rest o

/-- The `isVote || isCoinbase` guard of `iterateBlockOpsInTx` (block.go
lines 141-142): input 0 is special for stake-tree SSGen transactions and
for the regular-tree transaction at index 0. -/
def txSkipsFirstIn (tree : Int) (txIndex : Int) (tx : MsgTx) : Bool :=
  (tree == TxTreeStake && tx.ssgen) || (tree == TxTreeRegular && txIndex == 0)

/-- The `prevOutpoints` slice built in block.go lines 145-154: the
outpoints of all inputs, in index order, except input 0 when
`skipFirst`.  `i` is the running loop index. -/
def prevOutpointsToFetch (skipFirst : Bool) : Nat → List TxIn → List OutPoint
  | _, [] => []
  | i, tin :: rest =>
    if i == 0 && skipFirst then prevOutpointsToFetch skipFirst (i + 1) rest
    else tin.previousOutPoint :: prevOutpointsToFetch skipFirst (i + 1) rest

/-- The `addTxIns` closure of `iterateBlockOpsInTx` (block.go lines
166-207).  `i` is the input index, `opIdx` the running cumulative
operation index; returns the final operation index and the emitted debit
operations in emission order. -/
def addTxIns (extract : Extractor) (prevInputs : List (OutPoint × PrevInput))
    (tree : Int) (status : OpStatus) (tx : MsgTx) (txIndex : Int) (skipFirst : Bool) :
    Nat → Nat → List TxIn → Except Err (Nat × List Op)
  | _, opIdx, [] => .ok (opIdx, [])
  | i, opIdx, tin :: rest =>
    if i == 0 && skipFirst then
      addTxIns extract prevInputs tree status tx txIndex skipFirst (i + 1) opIdx rest
    else
      match lookupPrevInput prevInputs tin.previousOutPoint with
      | none => .error (.missingPrevInput tin.previousOutPoint)
      | some pi =>
        match dcrPkScriptToAccountAddr extract pi.version pi.pkScript with
        | .error e => .error (.scriptErr e)
        | .ok acct =>
          if acct = "" then
            addTxIns extract prevInputs tree status tx txIndex skipFirst (i + 1) opIdx rest
          else
            match addTxIns extract prevInputs tree status tx txIndex skipFirst (i + 1) (opIdx + 1) rest with
            | .error e => .error e
            | .ok (n, ops) =>
              .ok (n, { tree := tree, status := status, tx := tx, txIndex := txIndex,
                        ioIndex := i, account := acct, type := .debit, opIndex := opIdx,
                        amount := if status = .reversed then pi.amount else -pi.amount,
                        txin := some tin, out := none, prevInput := some pi } :: ops)

/-- The `addTxOuts` closure of `iterateBlockOpsInTx` (block.go lines
214-251): zero-valued outputs and empty accounts are skipped, credits are
emitted in output-index order. -/
def addTxOuts (extract : Extractor)
    (tree : Int) (status : OpStatus) (tx : MsgTx) (txIndex : Int) :
    Nat → Nat → List TxOut → Except Err (Nat × List Op)
  | _, opIdx, [] => .ok (opIdx, [])
  | i, opIdx, o :: rest =>
    if o.value = 0 then
      addTxOuts extract tree status tx txIndex (i + 1) opIdx rest
    else
      match dcrPkScriptToAccountAddr extract o.version o.pkScript with
      | .error e => .error (.scriptErr e)
      | .ok acct =>
        if acct = "" then
          addTxOuts extract tree status tx txIndex (i + 1) opIdx rest
        else
          match addTxOuts extract tree status tx txIndex (i + 1) (opIdx + 1) rest with
          | .error e => .error e
          | .ok (n, ops) =>
            .ok (n, { tree := tree, status := status, tx := tx, txIndex := txIndex,
                      ioIndex := i, account := acct, type := .credit, opIndex := opIdx,
                      amount := if status = .reversed then -o.value else o.value,
                      txin := none, out := some o, prevInput := none } :: ops)

/-- Embedding of `iterateBlockOpsInTx` (block.go lines 139-273): fetch the previous
inputs of the non-skipped inputs, then emit debits-then-credits for a
success status and credits-then-debits for a reversed status.
`startOpIdx` is the incoming value of the cumulative `op.OpIndex` (always
0 at the call sites modelled here). -/
def iterateBlockOpsInTx (extract : Extractor) (fetchInputs : PrevInputsFetcher)
    (tree : Int) (status : OpStatus) (tx : MsgTx) (txIndex : Int) (startOpIdx : Nat) :
    Except Err (Nat × List Op) :=
  match fetchInputs (prevOutpointsToFetch (txSkipsFirstIn tree txIndex tx) 0 tx.txIn) with
  | .error e => .error e
  | .ok prevInputs =>
    if status = .success then
      match addTxIns extract prevInputs tree status tx txIndex (txSkipsFirstIn tree txIndex tx) 0 startOpIdx tx.txIn with
      | .error e => .error e
      | .ok (n1, insOps) =>
        match addTxOuts extract tree status tx txIndex 0 n1 tx.txOut with
        | .error e => .error e
        | .ok (n2, outOps) => .ok (n2, insOps ++ outOps)
    else
      match addTxOuts extract tree status tx txIndex 0 startOpIdx tx.txOut with
      | .error e => .error e
      | .ok (n1, outOps) =>
        match addTxIns extract prevInputs tree status tx txIndex (txSkipsFirstIn tree txIndex tx) 0 n1 tx.txIn with
        | .error e => .error e
        | .ok (n2, insOps) => .ok (n2, outOps ++ insOps)

/-- Embedding of `VoteBitsApprovesParent` (block.go lines 40-42). -/
def VoteBitsApprovesParent (voteBits : Nat) : Bool :=
  voteBits &&& 1 == 1

/-- The `applyTxs` closure of `IterateBlockOps` (block.go lines 285-302):
runs `iterateBlockOpsInTx` on each transaction of one tree with the same
status, resetting the per-transaction operation index to 0, and
concatenates the emitted operations.  `i` is the transaction index. -/
def applyTxs (extract : Extractor) (fetchInputs : PrevInputsFetcher)
    (tree : Int) (status : OpStatus) : Nat → List MsgTx → Except Err (List Op)
  | _, [] => .ok []
  | i, tx :: rest =>
    match iterateBlockOpsInTx extract fetchInputs tree status tx (Int.ofNat i) 0 with
    | .error e => .error e
    | .ok (_, ops) =>
      match applyTxs extract fetchInputs tree status (i + 1) rest with
      | .error e => .error e
      | .ok more => .ok (ops ++ more)

/-- Embedding of `IterateBlockOps` (block.go lines 275-318): fail `NeedsPreviousBlock`
when the parent is disapproved and absent; otherwise reversed parent
regular transactions (when disapproved), then the block's regular
transactions, then its stake transactions. -/
def IterateBlockOps (extract : Extractor) (fetchInputs : PrevInputsFetcher)
    (b : MsgBlock) (prev : Option MsgBlock) : Except Err (List Op) :=
  let approvesParent := VoteBitsApprovesParent b.header.voteBits || b.header.height == 0
  if !approvesParent && prev.isNone then .error .needsPreviousBlock
  else
    match (if !approvesParent then
             match prev with
             | some p => applyTxs extract fetchInputs TxTreeRegular .reversed 0 p.transactions
             | none => .error .needsPreviousBlock
           else .ok []) with
    | .error e => .error e
    | .ok o0 =>
      match applyTxs extract fetchInputs TxTreeRegular .success 0 b.transactions with
      | .error e => .error e
      | .ok o1 =>
        match applyTxs extract fetchInputs TxTreeStake .success 0 b.sTransactions with
        | .error e => .error e
        | .ok o2 => .ok (o0 ++ o1 ++ o2)

/-- Embedding of `rtypes.BlockIdentifier`: height index plus block hash identity. -/
structure BlockIdentifier where
  index : Nat
  hash : Nat
deriving DecidableEq, Repr

/-- Embedding of `rtypes.Transaction` as built by `txMetaToRosetta` plus the `applyOp`
closure of `WireBlockToRosetta`: the source transaction (standing for its
hash identifier and metadata) and its operations in emission order. -/
structure RTransaction where
  tx : MsgTx
  operations : List Op
deriving DecidableEq, Repr

/-- Embedding of `rtypes.Block`, reduced to the identifier and transaction fields the
claims mention. -/
structure RBlock where
  blockIdentifier : BlockIdentifier
  parentBlockIdentifier : BlockIdentifier
  transactions : List RTransaction
deriving DecidableEq, Repr

/-- Append an operation to the most recently created transaction (the Go
`tx.Operations = append(tx.Operations, op.ROp())` through the shared
`tx` pointer).  On an empty list the Go closure would dereference a nil
pointer; that case is unreachable for streams whose transactions each
start at operation index 0. -/
def appendOpToLast : List RTransaction → Op → List RTransaction
  | [], _ => []
  | [t], op => [{ t with operations := t.operations ++ [op] }]
  | t :: t2 :: ts, op => t :: appendOpToLast (t2 :: ts) op

/-- The `applyOp` closure of `WireBlockToRosetta` (block.go lines
356-364): an operation with index 0 starts a new transaction; every
operation is appended to the current transaction. -/
def applyOpRosetta (txs : List RTransaction) (op : Op) : List RTransaction :=
  appendOpToLast
    (if op.opIndex == 0 then txs ++ [{ tx := op.tx, operations := [] }] else txs)
    op

/-- Embedding of `WireBlockToRosetta` (block.go lines 339-406).  The `blockHashFn` argument stands
for the external `BlockHeader.BlockHash()`.  Timestamp and metadata
fields are not modelled (no claim mentions them). -/
def WireBlockToRosetta (extract : Extractor) (fetchInputs : PrevInputsFetcher)
    (blockHashFn : BlockHeader → Nat) (b : MsgBlock) (prev : Option MsgBlock) :
    Except Err RBlock :=
  let approvesParent := VoteBitsApprovesParent b.header.voteBits || b.header.height == 0
  if !approvesParent && prev.isNone then .error .needsPreviousBlock
  else
    match IterateBlockOps extract fetchInputs b prev with
    | .error e => .error e
    | .ok ops =>
      let blockHash := blockHashFn b.header
      .ok { blockIdentifier := { index := b.header.height, hash := blockHash },
            parentBlockIdentifier :=
              if b.header.height == 0 then { index := 0, hash := blockHash }
              else { index := b.header.height - 1, hash := b.header.prevBlock },
            transactions := ops.foldl applyOpRosetta [] }

/-- Per-transaction projection chunks of one tree: like `applyTxs` but
keeping each transaction's operations as a separate chunk.  Joining the
chunks recovers `applyTxs`. -/
def txChunks (extract : Extractor) (fetchInputs : PrevInputsFetcher)
    (tree : Int) (status : OpStatus) : Nat → List MsgTx → Except Err (List (MsgTx × List Op))
  | _, [] => .ok []
  | i, tx :: rest =>
    match iterateBlockOpsInTx extract fetchInputs tree status tx (Int.ofNat i) 0 with
    | .error e => .error e
    | .ok (_, ops) =>
      match txChunks extract fetchInputs tree status (i + 1) rest with
      | .error e => .error e
      | .ok more => .ok ((tx, ops) :: more)

/-- Per-transaction projection chunks of a whole block, in the order
`IterateBlockOps` visits the transactions. -/
def blockTxChunks (extract : Extractor) (fetchInputs : PrevInputsFetcher)
    (b : MsgBlock) (prev : Option MsgBlock) : Except Err (List (MsgTx × List Op)) :=
  let approvesParent := VoteBitsApprovesParent b.header.voteBits || b.header.height == 0
  if !approvesParent && prev.isNone then .error .needsPreviousBlock
  else
    match (if !approvesParent then
             match prev with
             | some p => txChunks extract fetchInputs TxTreeRegular .reversed 0 p.transactions
             | none => .error .needsPreviousBlock
           else .ok []) with
    | .error e => .error e
    | .ok c0 =>
      match txChunks extract fetchInputs TxTreeRegular .success 0 b.transactions with
      | .error e => .error e
      | .ok c1 =>
        match txChunks extract fetchInputs TxTreeStake .success 0 b.sTransactions with
        | .error e => .error e
        | .ok c2 => .ok (c0 ++ c1 ++ c2)

/-- Flatten chunk operations back into one stream. -/
def chunkOps (cs : List (MsgTx × List Op)) : List Op :=
  (cs.map Prod.snd).flatten

/-- Predicate `opIdxSeq s ops` holds when the operation indices of `ops` are
`s, s+1, s+2, ...` in order. -/
def opIdxSeq : Nat → List Op → Bool
  | _, [] => true
  | s, op :: rest => op.opIndex == s && opIdxSeq (s + 1) rest

/-! ## Notification queue (`backend/server.go`)

The queue state is the mutex-guarded `Server.blockNtfns` slice.  The
mutex discipline serializes all accesses, so each critical section is
embedded as a pure function on the slice contents. -/

/-- Embedding of `blockNtfnType` (server.go lines 65-70). -/
inductive BlockNtfnType
  | blockConnected
  | blockDisconnected
deriving DecidableEq, Repr

/-- Embedding of `blockNtfn` (server.go lines 72-75). -/
structure BlockNtfn where
  ntfnType : BlockNtfnType
  header : BlockHeader
deriving DecidableEq, Repr

/-- The append performed under the lock by `onDcrdBlockConnected` (server.go
line 255) and `onDcrdBlockDisconnected` (line 275): producers append at
the tail. -/
def appendBlockNtfn (ntfns : List BlockNtfn) (n : BlockNtfn) : List BlockNtfn :=
  ntfns ++ [n]

/-- The consumer critical section of `Server.Run` (server.go lines
342-355): take `blockNtfns[0]`, shift the remaining entries left by one
and truncate — i.e. remove exactly the head.  Returns the notification to
process and the queue contents left pending at lock release. -/
def takeNextBlockNtfn : List BlockNtfn → Option (BlockNtfn × List BlockNtfn)
  | [] => none
  | n :: rest => some (n, rest)

/-- Iterating the consumer step until the queue is empty, collecting the
notifications in the order they are handed to
`handleBlockConnected`/`handleBlockDisconnected`.  The fuel argument
bounds the number of steps; `processNtfns` supplies enough. -/
def processNtfnsAux : Nat → List BlockNtfn → List BlockNtfn
  | 0, _ => []
  | fuel + 1, q =>
    match takeNextBlockNtfn q with
    | none => []
    | some (n, rest) => n :: processNtfnsAux fuel rest

/-- The order in which the event loop processes a queue of pending
notifications, assuming no further producer appends. -/
def processNtfns (q : List BlockNtfn) : List BlockNtfn :=
  processNtfnsAux q.length q

/-! ## Concrete fixtures used by witnesses and counterexamples -/

/-- An extractor that recognizes every version-0 script as the single
address `"DsExample"`. -/
def extractOne : Extractor := fun _ _ => .ok ["DsExample"]

/-- A fetcher that answers every request with a fixed association list. -/
def fetchConst (m : List (OutPoint × PrevInput)) : PrevInputsFetcher := fun _ => .ok m

/-- A block-hash function assigning header `h` the identity
`h.height + 1000`. -/
def hashByHeight : BlockHeader → Nat := fun h => h.height + 1000

/-- Outpoint referenced by the concrete spending transaction. -/
def outPt0 : OutPoint := { hash := 7, index := 0, tree := 0 }

/-- Previous input paying 50 units from a version-0 script. -/
def prevIn0 : PrevInput := { pkScript := [1, 2], version := 0, amount := 50 }

/-- A one-input one-output transaction spending `outPt0`. -/
def txSpend : MsgTx :=
  { txIn := [{ previousOutPoint := outPt0 }],
    txOut := [{ value := 40, version := 0, pkScript := [3] }],
    ssgen := false }

/-- A transaction with a zero-valued output before a 100-unit output
(spec Scenario 2). -/
def txZeroOut : MsgTx :=
  { txIn := [],
    txOut := [{ value := 0, version := 0, pkScript := [9] },
              { value := 100, version := 0, pkScript := [3] }],
    ssgen := false }

/-- A transaction with no inputs and only zero-valued outputs, hence
emitting no operations at all. -/
def txAllZero : MsgTx :=
  { txIn := [],
    txOut := [{ value := 0, version := 0, pkScript := [9] }],
    ssgen := false }

/-- A coinbase-shaped transaction: one synthetic input, one 60-unit
output. -/
def txCoinbase : MsgTx :=
  { txIn := [{ previousOutPoint := { hash := 0, index := 0, tree := 0 } }],
    txOut := [{ value := 60, version := 0, pkScript := [4] }],
    ssgen := false }

/-- A disapproving block at height 1 (voteBits 0) with no transactions of
its own. -/
def blockDisapprove : MsgBlock :=
  { header := { voteBits := 0, height := 1, prevBlock := 1000 },
    transactions := [], sTransactions := [] }

/-- A parent block whose regular tree holds `txSpend`. -/
def blockParent : MsgBlock :=
  { header := { voteBits := 1, height := 0, prevBlock := 0 },
    transactions := [txSpend], sTransactions := [] }

/-- A genesis block (height 0) carrying one coinbase transaction. -/
def blockGenesis : MsgBlock :=
  { header := { voteBits := 0, height := 0, prevBlock := 0 },
    transactions := [txCoinbase], sTransactions := [] }

/-- An approving block at height 2 whose regular tree holds a coinbase
and a transaction that emits no operations. -/
def blockWithEmptyTx : MsgBlock :=
  { header := { voteBits := 1, height := 2, prevBlock := 1001 },
    transactions := [txCoinbase, txAllZero], sTransactions := [] }

/-- Concrete block-connected notification. -/
def ntfnA : BlockNtfn :=
  { ntfnType := .blockConnected, header := { voteBits := 1, height := 5, prevBlock := 4 } }

/-- Concrete block-disconnected notification. -/
def ntfnB : BlockNtfn :=
  { ntfnType := .blockDisconnected, header := { voteBits := 1, height := 5, prevBlock := 4 } }

/-- The debit operation emitted for the single input of `txSpend` at
transaction index 1 of the regular tree, success status. -/
def opDebitSpend : Op :=
  { tree := TxTreeRegular, status := .success, tx := txSpend, txIndex := 1,
    ioIndex := 0, account := "DsExample", type := .debit, opIndex := 0,
    amount := -50, txin := some { previousOutPoint := outPt0 }, out := none,
    prevInput := some prevIn0 }

/-- The credit operation emitted for the single output of `txSpend`. -/
def opCreditSpend : Op :=
  { tree := TxTreeRegular, status := .success, tx := txSpend, txIndex := 1,
    ioIndex := 0, account := "DsExample", type := .credit, opIndex := 1,
    amount := 40, txin := none, out := some { value := 40, version := 0, pkScript := [3] },
    prevInput := none }

/-- The single credit operation emitted for `txZeroOut`: output index 1,
operation index 0, amount +100. -/
def opCreditZeroOut : Op :=
  { tree := TxTreeRegular, status := .success, tx := txZeroOut, txIndex := 1,
    ioIndex := 1, account := "DsExample", type := .credit, opIndex := 0,
    amount := 100, txin := none, out := some { value := 100, version := 0, pkScript := [3] },
    prevInput := none }

/-- The credit operation emitted for the output of `txCoinbase` at
transaction index 0 of the regular tree. -/
def opCreditCoinbase : Op :=
  { tree := TxTreeRegular, status := .success, tx := txCoinbase, txIndex := 0,
    ioIndex := 0, account := "DsExample", type := .credit, opIndex := 0,
    amount := 60, txin := none, out := some { value := 60, version := 0, pkScript := [4] },
    prevInput := none }

/-- The single (reversed-status) operation the disapproving block
projection emits for `txSpend` as transaction 0 of the parent's regular
tree: the credit is reversed; the input is skipped because transaction 0
of the regular tree is treated as a coinbase. -/
def opRevCreditSpend : Op :=
  { tree := TxTreeRegular, status := .reversed, tx := txSpend, txIndex := 0,
    ioIndex := 0, account := "DsExample", type := .credit, opIndex := 0,
    amount := -40, txin := none, out := some { value := 40, version := 0, pkScript := [3] },
    prevInput := none }

/-- The Rosetta block produced for `blockGenesis`. -/
def rBlockGenesis : RBlock :=
  { blockIdentifier := { index := 0, hash := 1000 },
    parentBlockIdentifier := { index := 0, hash := 1000 },
    transactions := [{ tx := txCoinbase, operations := [opCreditCoinbase] }] }

/-- The Rosetta block produced for `blockWithEmptyTx`: the zero-operation
transaction `txAllZero` does not appear. -/
def rBlockWithEmptyTx : RBlock :=
  { blockIdentifier := { index := 2, hash := 1002 },
    parentBlockIdentifier := { index := 1, hash := 1001 },
    transactions := [{ tx := txCoinbase, operations := [opCreditCoinbase] }] }

/-! ## Helper lemmas -/

theorem opIdxSeq_append {l1 l2 : List Op} {s : Nat}
    (h1 : opIdxSeq s l1 = true) (h2 : opIdxSeq (s + l1.length) l2 = true) :
    opIdxSeq s (l1 ++ l2) = true := by
  induction l1 generalizing s with
  | nil => simpa using h2
  | cons op rest ih =>
    simp only [opIdxSeq, Bool.and_eq_true, beq_iff_eq] at h1 ⊢
    refine ⟨h1.1, ih h1.2 ?_⟩
    have : s + 1 + rest.length = s + (rest.length + 1) := by omega
    simpa [this] using h2

theorem opIdxSeq_ge {l : List Op} {s : Nat} (h : opIdxSeq s l = true) :
    ∀ op ∈ l, s ≤ op.opIndex := by
  induction l generalizing s with
  | nil => simp
  | cons op rest ih =>
    simp only [opIdxSeq, Bool.and_eq_true, beq_iff_eq] at h
    intro o ho
    rcases List.mem_cons.mp ho with rfl | ho'
    · omega
    · have := ih h.2 o ho'
      omega

theorem opIdxSeq_map_range' {l : List Op} {s : Nat} (h : opIdxSeq s l = true) :
    l.map (fun op => op.opIndex) = List.range' s l.length := by
  induction l generalizing s with
  | nil => simp
  | cons op rest ih =>
    simp only [opIdxSeq, Bool.and_eq_true, beq_iff_eq] at h
    simp [List.range'_succ, ih h.2, h.1]

theorem opIdxSeq_map_range {l : List Op} (h : opIdxSeq 0 l = true) :
    l.map (fun op => op.opIndex) = List.range l.length := by
  rw [List.range_eq_range']
  exact opIdxSeq_map_range' h

theorem addTxIns_ok {e : Extractor} {pins : List (OutPoint × PrevInput)}
    {tree : Int} {status : OpStatus} {tx : MsgTx} {txIdx : Int} {skip : Bool}
    {l : List TxIn} {i s n : Nat} {ops : List Op}
    (h : addTxIns e pins tree status tx txIdx skip i s l = .ok (n, ops)) :
    n = s + ops.length ∧ opIdxSeq s ops = true ∧
    (∀ op ∈ ops, op.type = .debit ∧ op.tx = tx ∧ op.status = status ∧ op.tree = tree ∧
      op.out = none ∧ i ≤ op.ioIndex ∧
      ∃ pi, op.prevInput = some pi ∧
        op.amount = (if status = .reversed then pi.amount else -pi.amount)) ∧
    (ops.map (fun op => op.ioIndex)).Pairwise (· < ·) := by
  induction l generalizing i s n ops with
  | nil =>
    simp only [addTxIns, Except.ok.injEq, Prod.mk.injEq] at h
    obtain ⟨rfl, rfl⟩ := h
    refine ⟨by simp, rfl, by simp, by simp⟩
  | cons tin rest ih =>
    simp only [addTxIns] at h
    split at h
    · -- input 0 skipped
      obtain ⟨h1, h2, h3, h4⟩ := ih h
      refine ⟨h1, h2, fun op hop => ?_, h4⟩
      obtain ⟨a, b, c, d, e', f, g⟩ := h3 op hop
      exact ⟨a, b, c, d, e', by omega, g⟩
    · split at h
      · simp at h
      · rename_i pi hpi
        split at h
        · simp at h
        · rename_i acct hacct
          split at h
          · -- empty account: skipped
            obtain ⟨h1, h2, h3, h4⟩ := ih h
            refine ⟨h1, h2, fun op hop => ?_, h4⟩
            obtain ⟨a, b, c, d, e', f, g⟩ := h3 op hop
            exact ⟨a, b, c, d, e', by omega, g⟩
          · split at h
            · simp at h
            · rename_i n' ops' hrec
              simp only [Except.ok.injEq, Prod.mk.injEq] at h
              obtain ⟨rfl, rfl⟩ := h
              obtain ⟨h1, h2, h3, h4⟩ := ih hrec
              refine ⟨by simp only [List.length_cons]; omega, ?_, ?_, ?_⟩
              · simp [opIdxSeq, h2]
              · intro op hop
                rcases List.mem_cons.mp hop with rfl | hop'
                · exact ⟨rfl, rfl, rfl, rfl, rfl, Nat.le_refl _, pi, rfl, rfl⟩
                · obtain ⟨a, b, c, d, e', f, g⟩ := h3 op hop'
                  exact ⟨a, b, c, d, e', by omega, g⟩
              · simp only [List.map_cons, List.pairwise_cons]
                refine ⟨?_, h4⟩
                intro x hx
                simp only [List.mem_map] at hx
                obtain ⟨op, hop, rfl⟩ := hx
                have := (h3 op hop).2.2.2.2.2.1
                exact Nat.lt_of_lt_of_le (Nat.lt_succ_self _) this

theorem rawPkScriptToAccountAddr_ne_empty (v : Nat) (pk : List Nat) :
    rawPkScriptToAccountAddr v pk ≠ "" := by
  intro hc
  have h2 := congrArg String.data hc
  simp [rawPkScriptToAccountAddr, bytesToString] at h2

theorem dcrPkScriptToAccountAddr_ne_empty {e : Extractor}
    (hext : ∀ v pk addrs, e v pk = .ok addrs → ∀ a ∈ addrs, a ≠ "")
    {v : Nat} {pk : List Nat} {acct : String}
    (h : dcrPkScriptToAccountAddr e v pk = .ok acct) : acct ≠ "" := by
  unfold dcrPkScriptToAccountAddr at h
  split at h
  · simp only [Except.ok.injEq] at h
    subst h
    exact rawPkScriptToAccountAddr_ne_empty _ _
  · split at h
    · simp at h
    · rename_i a heq
      simp only [Except.ok.injEq] at h
      subst h
      exact hext _ _ _ heq _ (by simp)
    · simp only [Except.ok.injEq] at h
      subst h
      exact rawPkScriptToAccountAddr_ne_empty _ _

theorem prevOutpointsToFetch_noskip {skipFirst : Bool} (l : List TxIn) :
    ∀ i, skipFirst = false ∨ i ≠ 0 →
      prevOutpointsToFetch skipFirst i l = l.map (fun tin => tin.previousOutPoint) := by
  induction l with
  | nil => intro i _; rfl
  | cons tin rest ih =>
    intro i hi
    have hcond : (i == 0 && skipFirst) = false := by
      rcases hi with h | h
      · simp [h]
      · have : (i == 0) = false := by simpa using h
        simp [this]
    simp only [prevOutpointsToFetch, hcond]
    simp only [Bool.false_eq_true, if_false, List.map_cons]
    rw [ih (i + 1) (Or.inr (by omega))]

theorem prevOutpointsToFetch_skip (tin : TxIn) (rest : List TxIn) :
    prevOutpointsToFetch true 0 (tin :: rest) = rest.map (fun t => t.previousOutPoint) := by
  simp only [prevOutpointsToFetch]
  simp only [beq_self_eq_true, Bool.and_self, if_true]
  exact prevOutpointsToFetch_noskip rest 1 (Or.inr one_ne_zero)

theorem addTxOuts_ok {e : Extractor}
    {tree : Int} {status : OpStatus} {tx : MsgTx} {txIdx : Int}
    {l : List TxOut} {i s n : Nat} {ops : List Op}
    (h : addTxOuts e tree status tx txIdx i s l = .ok (n, ops)) :
    n = s + ops.length ∧ opIdxSeq s ops = true ∧
    (∀ op ∈ ops, op.type = .credit ∧ op.tx = tx ∧ op.status = status ∧ op.tree = tree ∧
      op.txin = none ∧ op.prevInput = none ∧ i ≤ op.ioIndex ∧
      ∃ o, op.out = some o ∧ o.value ≠ 0 ∧
        op.amount = (if status = .reversed then -o.value else o.value)) ∧
    (ops.map (fun op => op.ioIndex)).Pairwise (· < ·) := by
  induction l generalizing i s n ops with
  | nil =>
    simp only [addTxOuts, Except.ok.injEq, Prod.mk.injEq] at h
    obtain ⟨rfl, rfl⟩ := h
    refine ⟨by simp, rfl, by simp, by simp⟩
  | cons o rest ih =>
    simp only [addTxOuts] at h
    split at h
    · -- zero-valued output skipped
      obtain ⟨h1, h2, h3, h4⟩ := ih h
      refine ⟨h1, h2, fun op hop => ?_, h4⟩
      obtain ⟨a, b, c, d, e', f, g, hg⟩ := h3 op hop
      exact ⟨a, b, c, d, e', f, by omega, hg⟩
    · rename_i hval
      split at h
      · simp at h
      · rename_i acct hacct
        split at h
        · -- empty account skipped
          obtain ⟨h1, h2, h3, h4⟩ := ih h
          refine ⟨h1, h2, fun op hop => ?_, h4⟩
          obtain ⟨a, b, c, d, e', f, g, hg⟩ := h3 op hop
          exact ⟨a, b, c, d, e', f, by omega, hg⟩
        · split at h
          · simp at h
          · rename_i n' ops' hrec
            simp only [Except.ok.injEq, Prod.mk.injEq] at h
            obtain ⟨rfl, rfl⟩ := h
            obtain ⟨h1, h2, h3, h4⟩ := ih hrec
            refine ⟨by simp only [List.length_cons]; omega, ?_, ?_, ?_⟩
            · simp [opIdxSeq, h2]
            · intro op hop
              rcases List.mem_cons.mp hop with rfl | hop'
              · exact ⟨rfl, rfl, rfl, rfl, rfl, rfl, Nat.le_refl _, o, rfl, hval, rfl⟩
              · obtain ⟨a, b, c, d, e', f, g, hg⟩ := h3 op hop'
                exact ⟨a, b, c, d, e', f, by omega, hg⟩
            · simp only [List.map_cons, List.pairwise_cons]
              refine ⟨?_, h4⟩
              intro x hx
              simp only [List.mem_map] at hx
              obtain ⟨op, hop, rfl⟩ := hx
              have := (h3 op hop).2.2.2.2.2.2.1
              exact Nat.lt_of_lt_of_le (Nat.lt_succ_self _) this

theorem iterateBlockOpsInTx_ok_cases {e : Extractor} {f : PrevInputsFetcher}
    {tree : Int} {status : OpStatus} {tx : MsgTx} {txIdx : Int} {s n : Nat} {ops : List Op}
    (h : iterateBlockOpsInTx e f tree status tx txIdx s = .ok (n, ops)) :
    ∃ pins, f (prevOutpointsToFetch (txSkipsFirstIn tree txIdx tx) 0 tx.txIn) = .ok pins ∧
      ((status = .success ∧ ∃ n1 o1 o2,
          addTxIns e pins tree status tx txIdx (txSkipsFirstIn tree txIdx tx) 0 s tx.txIn = .ok (n1, o1) ∧
          addTxOuts e tree status tx txIdx 0 n1 tx.txOut = .ok (n, o2) ∧
          ops = o1 ++ o2) ∨
       (status = .reversed ∧ ∃ n1 o1 o2,
          addTxOuts e tree status tx txIdx 0 s tx.txOut = .ok (n1, o1) ∧
          addTxIns e pins tree status tx txIdx (txSkipsFirstIn tree txIdx tx) 0 n1 tx.txIn = .ok (n, o2) ∧
          ops = o1 ++ o2)) := by
  unfold iterateBlockOpsInTx at h
  split at h
  · simp at h
  · rename_i pins hpins
    refine ⟨pins, hpins, ?_⟩
    split at h
    · rename_i hs
      left
      refine ⟨hs, ?_⟩
      split at h
      · simp at h
      · rename_i n1 o1 hins
        split at h
        · simp at h
        · rename_i n2 o2 houts
          simp only [Except.ok.injEq, Prod.mk.injEq] at h
          obtain ⟨rfl, rfl⟩ := h
          exact ⟨n1, o1, o2, hins, houts, rfl⟩
    · rename_i hs
      right
      have hs' : status = .reversed := by cases status <;> simp_all
      refine ⟨hs', ?_⟩
      split at h
      · simp at h
      · rename_i n1 o1 houts
        split at h
        · simp at h
        · rename_i n2 o2 hins
          simp only [Except.ok.injEq, Prod.mk.injEq] at h
          obtain ⟨rfl, rfl⟩ := h
          exact ⟨n1, o1, o2, houts, hins, rfl⟩

theorem iterateBlockOpsInTx_ok_opIdx {e : Extractor} {f : PrevInputsFetcher}
    {tree : Int} {status : OpStatus} {tx : MsgTx} {txIdx : Int} {s n : Nat} {ops : List Op}
    (h : iterateBlockOpsInTx e f tree status tx txIdx s = .ok (n, ops)) :
    n = s + ops.length ∧ opIdxSeq s ops = true := by
  obtain ⟨pins, hpins, hc⟩ := iterateBlockOpsInTx_ok_cases h
  rcases hc with ⟨_, n1, o1, o2, h1, h2, rfl⟩ | ⟨_, n1, o1, o2, h1, h2, rfl⟩
  · obtain ⟨e1, e2, _, _⟩ := addTxIns_ok h1
    obtain ⟨f1, f2, _, _⟩ := addTxOuts_ok h2
    subst e1
    refine ⟨by simp [List.length_append]; omega, opIdxSeq_append e2 f2⟩
  · obtain ⟨e1, e2, _, _⟩ := addTxOuts_ok h1
    obtain ⟨f1, f2, _, _⟩ := addTxIns_ok h2
    subst e1
    refine ⟨by simp [List.length_append]; omega, opIdxSeq_append e2 f2⟩

theorem iterateBlockOpsInTx_ok_mem {e : Extractor} {f : PrevInputsFetcher}
    {tree : Int} {status : OpStatus} {tx : MsgTx} {txIdx : Int} {s n : Nat} {ops : List Op}
    (h : iterateBlockOpsInTx e f tree status tx txIdx s = .ok (n, ops)) :
    ∀ op ∈ ops, op.tx = tx ∧ op.status = status ∧ op.tree = tree ∧
      ((op.type = .debit ∧ op.out = none ∧ ∃ pi, op.prevInput = some pi ∧
          op.amount = (if status = .reversed then pi.amount else -pi.amount)) ∨
       (op.type = .credit ∧ op.txin = none ∧ op.prevInput = none ∧
          ∃ o, op.out = some o ∧ o.value ≠ 0 ∧
            op.amount = (if status = .reversed then -o.value else o.value))) := by
  obtain ⟨pins, hpins, hc⟩ := iterateBlockOpsInTx_ok_cases h
  rcases hc with ⟨_, n1, o1, o2, h1, h2, rfl⟩ | ⟨_, n1, o1, o2, h1, h2, rfl⟩
  · obtain ⟨_, _, hm1, _⟩ := addTxIns_ok h1
    obtain ⟨_, _, hm2, _⟩ := addTxOuts_ok h2
    intro op hop
    rcases List.mem_append.mp hop with hi | ho
    · obtain ⟨a, b, c, d, e', _, g⟩ := hm1 op hi
      exact ⟨b, c, d, Or.inl ⟨a, e', g⟩⟩
    · obtain ⟨a, b, c, d, e', f', _, g⟩ := hm2 op ho
      exact ⟨b, c, d, Or.inr ⟨a, e', f', g⟩⟩
  · obtain ⟨_, _, hm1, _⟩ := addTxOuts_ok h1
    obtain ⟨_, _, hm2, _⟩ := addTxIns_ok h2
    intro op hop
    rcases List.mem_append.mp hop with ho | hi
    · obtain ⟨a, b, c, d, e', f', _, g⟩ := hm1 op ho
      exact ⟨b, c, d, Or.inr ⟨a, e', f', g⟩⟩
    · obtain ⟨a, b, c, d, e', _, g⟩ := hm2 op hi
      exact ⟨b, c, d, Or.inl ⟨a, e', g⟩⟩

theorem addTxIns_skip_first {e : Extractor} {pins : List (OutPoint × PrevInput)}
    {tree : Int} {status : OpStatus} {tx : MsgTx} {txIdx : Int}
    {l : List TxIn} {s n : Nat} {ops : List Op}
    (h : addTxIns e pins tree status tx txIdx true 0 s l = .ok (n, ops)) :
    ∀ op ∈ ops, 1 ≤ op.ioIndex := by
  cases l with
  | nil =>
    simp only [addTxIns, Except.ok.injEq, Prod.mk.injEq] at h
    obtain ⟨rfl, rfl⟩ := h
    simp
  | cons tin rest =>
    simp only [addTxIns] at h
    split at h
    · intro op hop
      exact ((addTxIns_ok h).2.2.1 op hop).2.2.2.2.2.1
    · rename_i hcond
      simp at hcond

theorem addTxIns_noskip_first {e : Extractor} {pins : List (OutPoint × PrevInput)}
    {tree : Int} {status : OpStatus} {tx : MsgTx} {txIdx : Int}
    {tin : TxIn} {rest : List TxIn} {s n : Nat} {ops : List Op}
    (hext : ∀ v pk addrs, e v pk = .ok addrs → ∀ a ∈ addrs, a ≠ "")
    (h : addTxIns e pins tree status tx txIdx false 0 s (tin :: rest) = .ok (n, ops)) :
    ∃ op ∈ ops, op.type = .debit ∧ op.ioIndex = 0 := by
  simp only [addTxIns] at h
  split at h
  · rename_i hcond
    simp at hcond
  split at h
  · simp at h
  · rename_i pi hpi
    split at h
    · simp at h
    · rename_i acct hacct
      split at h
      · rename_i hempty
        exact absurd hempty (dcrPkScriptToAccountAddr_ne_empty hext hacct)
      · split at h
        · simp at h
        · rename_i n' ops' hrec
          simp only [Except.ok.injEq, Prod.mk.injEq] at h
          obtain ⟨rfl, rfl⟩ := h
          exact ⟨_, List.mem_cons_self .., rfl, rfl⟩

/-- C1: with a resolver that returned every requested previous input (the
projection succeeded), every debit operation carries the negated
previous-input amount and every credit operation carries the output
value, with both signs flipped under the reversed status. -/
theorem amounts_follow_sign_rule {e : Extractor} {f : PrevInputsFetcher}
    {tree : Int} {status : OpStatus} {tx : MsgTx} {txIdx : Int} {n : Nat} {ops : List Op}
    (h : iterateBlockOpsInTx e f tree status tx txIdx 0 = .ok (n, ops)) :
    ∀ op ∈ ops,
      (op.type = .debit → ∃ pi, op.prevInput = some pi ∧
        op.amount = (if status = .reversed then pi.amount else -pi.amount)) ∧
      (op.type = .credit → ∃ o, op.out = some o ∧
        op.amount = (if status = .reversed then -o.value else o.value)) := by
  intro op hop
  obtain ⟨_, _, _, hd | hc⟩ := iterateBlockOpsInTx_ok_mem h op hop
  · obtain ⟨ht, _, pi, hpi, ha⟩ := hd
    refine ⟨fun _ => ⟨pi, hpi, ha⟩, fun hcontra => ?_⟩
    rw [ht] at hcontra
    simp at hcontra
  · obtain ⟨ht, _, _, o, ho, _, ha⟩ := hc
    refine ⟨fun hcontra => ?_, fun _ => ⟨o, ho, ha⟩⟩
    rw [ht] at hcontra
    simp at hcontra

theorem amounts_follow_sign_rule_witness :
    (opDebitSpend.type = .debit → ∃ pi, opDebitSpend.prevInput = some pi ∧
      opDebitSpend.amount = (if OpStatus.success = OpStatus.reversed then pi.amount else -pi.amount)) ∧
    (opDebitSpend.type = .credit → ∃ o, opDebitSpend.out = some o ∧
      opDebitSpend.amount = (if OpStatus.success = OpStatus.reversed then -o.value else o.value)) :=
  @amounts_follow_sign_rule extractOne (fetchConst [(outPt0, prevIn0)]) TxTreeRegular
    .success txSpend 1 2 [opDebitSpend, opCreditSpend] rfl opDebitSpend (by simp)

/-- C5: with a success status all debit operations precede all credit
operations, each group in input/output index order; with a reversed
status the credits precede the debits. -/
theorem emission_order {e : Extractor} {f : PrevInputsFetcher}
    {tree : Int} {status : OpStatus} {tx : MsgTx} {txIdx : Int} {n : Nat} {ops : List Op}
    (h : iterateBlockOpsInTx e f tree status tx txIdx 0 = .ok (n, ops)) :
    ∃ ds cs, (∀ op ∈ ds, op.type = .debit) ∧ (∀ op ∈ cs, op.type = .credit) ∧
      (ds.map (fun op => op.ioIndex)).Pairwise (· < ·) ∧
      (cs.map (fun op => op.ioIndex)).Pairwise (· < ·) ∧
      ops = (if status = .success then ds ++ cs else cs ++ ds) := by
  obtain ⟨pins, hpins, hca⟩ := iterateBlockOpsInTx_ok_cases h
  rcases hca with ⟨hs, n1, o1, o2, h1, h2, rfl⟩ | ⟨hs, n1, o1, o2, h1, h2, rfl⟩
  · obtain ⟨_, _, hm1, hp1⟩ := addTxIns_ok h1
    obtain ⟨_, _, hm2, hp2⟩ := addTxOuts_ok h2
    exact ⟨o1, o2, fun op hop => (hm1 op hop).1, fun op hop => (hm2 op hop).1,
      hp1, hp2, by simp [hs]⟩
  · obtain ⟨_, _, hm1, hp1⟩ := addTxOuts_ok h1
    obtain ⟨_, _, hm2, hp2⟩ := addTxIns_ok h2
    exact ⟨o2, o1, fun op hop => (hm2 op hop).1, fun op hop => (hm1 op hop).1,
      hp2, hp1, by simp [hs]⟩

theorem emission_order_witness :
    ∃ ds cs, (∀ op ∈ ds, op.type = OpType.debit) ∧ (∀ op ∈ cs, op.type = OpType.credit) ∧
      (ds.map (fun op => op.ioIndex)).Pairwise (· < ·) ∧
      (cs.map (fun op => op.ioIndex)).Pairwise (· < ·) ∧
      [opDebitSpend, opCreditSpend] =
        (if OpStatus.success = OpStatus.success then ds ++ cs else cs ++ ds) :=
  @emission_order extractOne (fetchConst [(outPt0, prevIn0)]) TxTreeRegular
    .success txSpend 1 2 [opDebitSpend, opCreditSpend] rfl

/-- C6: the operation indices of a projected transaction are exactly
0, 1, ..., n-1 in emission order. -/
theorem opIndex_sequence {e : Extractor} {f : PrevInputsFetcher}
    {tree : Int} {status : OpStatus} {tx : MsgTx} {txIdx : Int} {n : Nat} {ops : List Op}
    (h : iterateBlockOpsInTx e f tree status tx txIdx 0 = .ok (n, ops)) :
    ops.map (fun op => op.opIndex) = List.range ops.length :=
  opIdxSeq_map_range (iterateBlockOpsInTx_ok_opIdx h).2

theorem opIndex_sequence_witness :
    [opDebitSpend, opCreditSpend].map (fun op => op.opIndex) =
      List.range [opDebitSpend, opCreditSpend].length :=
  @opIndex_sequence extractOne (fetchConst [(outPt0, prevIn0)]) TxTreeRegular
    .success txSpend 1 2 [opDebitSpend, opCreditSpend] rfl

/-- C7: a zero-valued output emits no credit operation; concretely, the
transaction with outputs of value 0 and 100 emits exactly one credit
operation, with operation index 0 and amount +100. -/
theorem zero_value_outputs_skipped :
    (∀ (e : Extractor) (f : PrevInputsFetcher) (tree : Int) (status : OpStatus)
       (tx : MsgTx) (txIdx : Int) (n : Nat) (ops : List Op),
       iterateBlockOpsInTx e f tree status tx txIdx 0 = .ok (n, ops) →
       ∀ op ∈ ops, op.type = .credit → ∃ o, op.out = some o ∧ o.value ≠ 0) ∧
    iterateBlockOpsInTx extractOne (fetchConst []) TxTreeRegular .success txZeroOut 1 0 =
      .ok (1, [opCreditZeroOut]) := by
  constructor
  · intro e f tree status tx txIdx n ops h op hop hcred
    obtain ⟨_, _, _, hd | hc⟩ := iterateBlockOpsInTx_ok_mem h op hop
    · rw [hd.1] at hcred
      simp at hcred
    · obtain ⟨_, _, _, o, ho, hv, _⟩ := hc
      exact ⟨o, ho, hv⟩
  · rfl

theorem zero_value_outputs_skipped_witness :
    ∃ o, opCreditZeroOut.out = some o ∧ o.value ≠ 0 :=
  zero_value_outputs_skipped.1 extractOne (fetchConst []) TxTreeRegular .success
    txZeroOut 1 1 [opCreditZeroOut] rfl opCreditZeroOut (by simp) rfl

theorem filter_debit_ins_outs {o1 o2 : List Op}
    (h1 : ∀ op ∈ o1, op.type = .debit) (h2 : ∀ op ∈ o2, op.type = .credit) :
    (o1 ++ o2).filter (fun op => op.type == OpType.debit) = o1 := by
  rw [List.filter_append]
  rw [List.filter_eq_self.mpr (fun a ha => by simp [h1 a ha])]
  rw [List.filter_eq_nil_iff.mpr (fun a ha => by simp [h2 a ha])]
  simp

theorem filter_debit_outs_ins {o1 o2 : List Op}
    (h1 : ∀ op ∈ o1, op.type = .credit) (h2 : ∀ op ∈ o2, op.type = .debit) :
    (o1 ++ o2).filter (fun op => op.type == OpType.debit) = o2 := by
  rw [List.filter_append]
  rw [List.filter_eq_nil_iff.mpr (fun a ha => by simp [h1 a ha])]
  rw [List.filter_eq_self.mpr (fun a ha => by simp [h2 a ha])]
  simp

/-- C3: input 0 is suppressed exactly for votes (stake tree, SSGen) and
for the regular-tree transaction at index 0: its outpoint is not passed
to the resolver and no debit with input index 0 is emitted; otherwise the
resolver receives every input outpoint and (for a nonempty input list,
under the sanity assumption that the external extractor never returns an
empty address string) a debit with input index 0 is emitted; debits are
emitted in input-index order. -/
theorem input0_skip_rule {e : Extractor} {f : PrevInputsFetcher}
    {tree : Int} {status : OpStatus} {tx : MsgTx} {txIdx : Int} {n : Nat} {ops : List Op}
    (hext : ∀ v pk addrs, e v pk = .ok addrs → ∀ a ∈ addrs, a ≠ "")
    (h : iterateBlockOpsInTx e f tree status tx txIdx 0 = .ok (n, ops)) :
    (txSkipsFirstIn tree txIdx tx = true →
      prevOutpointsToFetch (txSkipsFirstIn tree txIdx tx) 0 tx.txIn =
        (tx.txIn.drop 1).map (fun tin => tin.previousOutPoint) ∧
      ∀ op ∈ ops, op.type = .debit → op.ioIndex ≠ 0) ∧
    (txSkipsFirstIn tree txIdx tx = false →
      prevOutpointsToFetch (txSkipsFirstIn tree txIdx tx) 0 tx.txIn =
        tx.txIn.map (fun tin => tin.previousOutPoint) ∧
      (tx.txIn ≠ [] → ∃ op ∈ ops, op.type = .debit ∧ op.ioIndex = 0)) ∧
    ((ops.filter (fun op => op.type == OpType.debit)).map (fun op => op.ioIndex)).Pairwise (· < ·) := by
  obtain ⟨pins, hpins, hca⟩ := iterateBlockOpsInTx_ok_cases h
  rcases hca with ⟨hs, n1, o1, o2, h1, h2, rfl⟩ | ⟨hs, n1, o1, o2, h1, h2, rfl⟩
  · -- success: o1 debits, o2 credits
    obtain ⟨_, _, hm1, hp1⟩ := addTxIns_ok h1
    obtain ⟨_, _, hm2, _⟩ := addTxOuts_ok h2
    refine ⟨fun hskip => ⟨?_, ?_⟩, fun hns => ⟨?_, fun hne => ?_⟩, ?_⟩
    · rw [hskip]
      cases tx.txIn with
      | nil => simp [prevOutpointsToFetch]
      | cons tin rest => simp [prevOutpointsToFetch_skip]
    · rw [hskip] at h1
      intro op hop hd
      rcases List.mem_append.mp hop with hi | ho
      · have := addTxIns_skip_first h1 op hi
        omega
      · rw [(hm2 op ho).1] at hd
        simp at hd
    · rw [hns]
      exact prevOutpointsToFetch_noskip tx.txIn 0 (Or.inl rfl)
    · rw [hns] at h1
      cases htx : tx.txIn with
      | nil => exact absurd htx hne
      | cons tin rest =>
        rw [htx] at h1
        obtain ⟨op, hop, hprops⟩ := addTxIns_noskip_first hext h1
        exact ⟨op, List.mem_append_left _ hop, hprops⟩
    · rw [filter_debit_ins_outs (fun op hop => (hm1 op hop).1) (fun op hop => (hm2 op hop).1)]
      exact hp1
  · -- reversed: o1 credits, o2 debits
    obtain ⟨_, _, hm1, _⟩ := addTxOuts_ok h1
    obtain ⟨_, _, hm2, hp2⟩ := addTxIns_ok h2
    refine ⟨fun hskip => ⟨?_, ?_⟩, fun hns => ⟨?_, fun hne => ?_⟩, ?_⟩
    · rw [hskip]
      cases tx.txIn with
      | nil => simp [prevOutpointsToFetch]
      | cons tin rest => simp [prevOutpointsToFetch_skip]
    · rw [hskip] at h2
      intro op hop hd
      rcases List.mem_append.mp hop with ho | hi
      · rw [(hm1 op ho).1] at hd
        simp at hd
      · have := addTxIns_skip_first h2 op hi
        omega
    · rw [hns]
      exact prevOutpointsToFetch_noskip tx.txIn 0 (Or.inl rfl)
    · rw [hns] at h2
      cases htx : tx.txIn with
      | nil => exact absurd htx hne
      | cons tin rest =>
        rw [htx] at h2
        obtain ⟨op, hop, hprops⟩ := addTxIns_noskip_first hext h2
        exact ⟨op, List.mem_append_right _ hop, hprops⟩
    · rw [filter_debit_outs_ins (fun op hop => (hm1 op hop).1) (fun op hop => (hm2 op hop).1)]
      exact hp2

theorem input0_skip_rule_witness :
    (([opDebitSpend, opCreditSpend].filter (fun op => op.type == OpType.debit)).map
      (fun op => op.ioIndex)).Pairwise (· < ·) :=
  (@input0_skip_rule extractOne (fetchConst [(outPt0, prevIn0)]) TxTreeRegular
    .success txSpend 1 2 [opDebitSpend, opCreditSpend]
    (fun v pk addrs hh => by
      simp only [extractOne, Except.ok.injEq] at hh
      subst hh
      intro a ha
      simp only [List.mem_singleton] at ha
      subst ha
      decide)
    rfl).2.2

theorem applyTxs_ok_mem {e : Extractor} {f : PrevInputsFetcher}
    {tree : Int} {status : OpStatus} :
    ∀ {i : Nat} {txs : List MsgTx} {ops : List Op},
      applyTxs e f tree status i txs = .ok ops →
      ∀ op ∈ ops, op.status = status ∧ op.tree = tree := by
  intro i txs
  induction txs generalizing i with
  | nil =>
    intro ops h
    simp only [applyTxs, Except.ok.injEq] at h
    subst h
    simp
  | cons tx rest ih =>
    intro ops h
    simp only [applyTxs] at h
    split at h
    · simp at h
    · rename_i n1 ops1 h1
      split at h
      · simp at h
      · rename_i more hmore
        simp only [Except.ok.injEq] at h
        subst h
        intro op hop
        rcases List.mem_append.mp hop with ha | hb
        · have := iterateBlockOpsInTx_ok_mem h1 op ha
          exact ⟨this.2.1, this.2.2.1⟩
        · exact ih hmore op hb

/-- C2: a block whose vote bits clear the approval bit and whose height
is positive requires the previous block (`NeedsPreviousBlock` otherwise),
and its projection is the parent's regular transactions with reversed
status, then its own regular transactions, then its stake transactions,
both with success status. -/
theorem disapproving_block_projection {e : Extractor} {f : PrevInputsFetcher} {b : MsgBlock}
    (hvb : b.header.voteBits &&& 1 = 0) (hh : 0 < b.header.height) :
    IterateBlockOps e f b none = .error .needsPreviousBlock ∧
    ∀ p ops, IterateBlockOps e f b (some p) = .ok ops →
      ∃ o0 o1 o2,
        applyTxs e f TxTreeRegular .reversed 0 p.transactions = .ok o0 ∧
        applyTxs e f TxTreeRegular .success 0 b.transactions = .ok o1 ∧
        applyTxs e f TxTreeStake .success 0 b.sTransactions = .ok o2 ∧
        ops = o0 ++ o1 ++ o2 ∧
        (∀ op ∈ o0, op.status = .reversed ∧ op.tree = TxTreeRegular) ∧
        (∀ op ∈ o1, op.status = .success ∧ op.tree = TxTreeRegular) ∧
        (∀ op ∈ o2, op.status = .success ∧ op.tree = TxTreeStake) := by
  have h1 : VoteBitsApprovesParent b.header.voteBits = false := by
    unfold VoteBitsApprovesParent
    rw [beq_eq_false_iff_ne]
    rw [hvb]
    decide
  have h2 : (b.header.height == 0) = false := by
    rw [beq_eq_false_iff_ne]
    omega
  constructor
  · simp [IterateBlockOps, h1, h2]
  · intro p ops h
    simp only [IterateBlockOps, h1, h2] at h
    simp only [Bool.or_self, Bool.not_false, Option.isNone_some, Bool.and_false,
      Bool.false_eq_true, if_false, if_true] at h
    split at h
    · simp at h
    · rename_i o0 hc0
      split at h
      · simp at h
      · rename_i o1 hc1
        split at h
        · simp at h
        · rename_i o2 hc2
          simp only [Except.ok.injEq] at h
          subst h
          exact ⟨o0, o1, o2, hc0, hc1, hc2, rfl,
            fun op hop => applyTxs_ok_mem hc0 op hop,
            fun op hop => applyTxs_ok_mem hc1 op hop,
            fun op hop => applyTxs_ok_mem hc2 op hop⟩

theorem disapproving_block_projection_witness :
    IterateBlockOps extractOne (fetchConst [(outPt0, prevIn0)]) blockDisapprove none =
      .error Err.needsPreviousBlock ∧
    ∃ o0 o1 o2,
      applyTxs extractOne (fetchConst [(outPt0, prevIn0)]) TxTreeRegular .reversed 0
        blockParent.transactions = .ok o0 ∧
      applyTxs extractOne (fetchConst [(outPt0, prevIn0)]) TxTreeRegular .success 0
        blockDisapprove.transactions = .ok o1 ∧
      applyTxs extractOne (fetchConst [(outPt0, prevIn0)]) TxTreeStake .success 0
        blockDisapprove.sTransactions = .ok o2 ∧
      [opRevCreditSpend] = o0 ++ o1 ++ o2 ∧
      (∀ op ∈ o0, op.status = OpStatus.reversed ∧ op.tree = TxTreeRegular) ∧
      (∀ op ∈ o1, op.status = OpStatus.success ∧ op.tree = TxTreeRegular) ∧
      (∀ op ∈ o2, op.status = OpStatus.success ∧ op.tree = TxTreeStake) :=
  ⟨(disapproving_block_projection (by decide) (by decide)).1,
   (disapproving_block_projection (by decide) (by decide)).2 blockParent [opRevCreditSpend] rfl⟩

/-- C4: for a nonzero script version the decoder returns the raw
hex-encoded form and never fails; for version 0 it returns the single
extracted address when there is exactly one, the raw form otherwise, and
fails exactly when the extractor fails; version 1 with pkScript
`deadbeef` yields `0x0001deadbeef`. -/
theorem script_decoder_spec :
    (∀ (e : Extractor) (v : Nat) (pk : List Nat), v ≠ 0 →
      dcrPkScriptToAccountAddr e v pk = .ok (rawPkScriptToAccountAddr v pk)) ∧
    (∀ (v : Nat) (pk : List Nat),
      rawPkScriptToAccountAddr v pk =
        "0x" ++ bytesToString (hexEncode [v / 256 % 256, v % 256]) ++ bytesToString (hexEncode pk)) ∧
    (∀ (e : Extractor) (pk : List Nat) (a : String), e 0 pk = .ok [a] →
      dcrPkScriptToAccountAddr e 0 pk = .ok a) ∧
    (∀ (e : Extractor) (pk : List Nat) (addrs : List String), e 0 pk = .ok addrs →
      addrs.length ≠ 1 →
      dcrPkScriptToAccountAddr e 0 pk = .ok (rawPkScriptToAccountAddr 0 pk)) ∧
    (∀ (e : Extractor) (pk : List Nat) (msg : String), e 0 pk = .error msg →
      dcrPkScriptToAccountAddr e 0 pk = .error msg) ∧
    (∀ (e : Extractor) (v : Nat) (pk : List Nat) (msg : String),
      dcrPkScriptToAccountAddr e v pk = .error msg → v = 0 ∧ e v pk = .error msg) ∧
    (∀ e : Extractor, dcrPkScriptToAccountAddr e 1 [0xDE, 0xAD, 0xBE, 0xEF] = .ok "0x0001deadbeef") := by
  refine ⟨?_, ?_, ?_, ?_, ?_, ?_, ?_⟩
  · intro e v pk hv
    simp [dcrPkScriptToAccountAddr, hv]
  · intro v pk
    unfold rawPkScriptToAccountAddr bytesToString
    show String.mk ((48 :: 120 :: (hexEncode [v / 256 % 256, v % 256] ++ hexEncode pk)).map Char.ofNat) =
      String.mk ((['0', 'x'] ++ (hexEncode [v / 256 % 256, v % 256]).map Char.ofNat) ++
        (hexEncode pk).map Char.ofNat)
    have c0 : Char.ofNat 48 = '0' := by decide
    have cx : Char.ofNat 120 = 'x' := by decide
    simp [c0, cx]
  · intro e pk a he
    simp [dcrPkScriptToAccountAddr, he]
  · intro e pk addrs he hlen
    cases addrs with
    | nil => simp [dcrPkScriptToAccountAddr, he]
    | cons a t =>
      cases t with
      | nil => exact absurd rfl hlen
      | cons b t2 => simp [dcrPkScriptToAccountAddr, he]
  · intro e pk msg he
    simp [dcrPkScriptToAccountAddr, he]
  · intro e v pk msg h
    unfold dcrPkScriptToAccountAddr at h
    split at h
    · simp at h
    · rename_i hv
      have hv0 : v = 0 := by omega
      subst hv0
      split at h
      · rename_i msg' heq
        simp only [Except.error.injEq] at h
        subst h
        exact ⟨rfl, heq⟩
      · simp at h
      · simp at h
  · intro e
    rfl

theorem script_decoder_spec_witness :
    dcrPkScriptToAccountAddr extractOne 0 [5] = .ok "DsExample" :=
  script_decoder_spec.2.2.1 extractOne [5] "DsExample" rfl

/-- C8: the Rosetta block identifier is (height, blockHash); at height 0
the parent identifier is the block identifier itself, at positive height
it is (height - 1, header.prevBlock). -/
theorem rosetta_block_identifiers {e : Extractor} {f : PrevInputsFetcher}
    {hashFn : BlockHeader → Nat} {b : MsgBlock} {prev : Option MsgBlock} {r : RBlock}
    (h : WireBlockToRosetta e f hashFn b prev = .ok r) :
    r.blockIdentifier = { index := b.header.height, hash := hashFn b.header } ∧
    (b.header.height = 0 → r.parentBlockIdentifier = r.blockIdentifier) ∧
    (0 < b.header.height →
      r.parentBlockIdentifier = { index := b.header.height - 1, hash := b.header.prevBlock }) := by
  simp only [WireBlockToRosetta] at h
  split at h
  · simp at h
  · split at h
    · simp at h
    · rename_i ops hops
      simp only [Except.ok.injEq] at h
      subst h
      refine ⟨rfl, ?_, ?_⟩
      · intro h0
        simp [h0]
      · intro hpos
        have hne : (b.header.height == 0) = false := by
          rw [beq_eq_false_iff_ne]
          omega
        simp [hne]

theorem rosetta_block_identifiers_witness :
    rBlockGenesis.blockIdentifier =
      { index := blockGenesis.header.height, hash := hashByHeight blockGenesis.header } ∧
    (blockGenesis.header.height = 0 →
      rBlockGenesis.parentBlockIdentifier = rBlockGenesis.blockIdentifier) ∧
    (0 < blockGenesis.header.height →
      rBlockGenesis.parentBlockIdentifier =
        { index := blockGenesis.header.height - 1, hash := blockGenesis.header.prevBlock }) :=
  @rosetta_block_identifiers extractOne (fetchConst [(outPt0, prevIn0)]) hashByHeight
    blockGenesis none rBlockGenesis rfl

/-- C9 (counterexample): with two pending notifications, the consumer
critical section of `Server.Run` removes only the first; the queue left
behind at lock release is nonempty, so the consumer does not drain all
pending notifications under the lock. -/
theorem consumer_takes_one_not_all :
    takeNextBlockNtfn [ntfnA, ntfnB] = some (ntfnA, [ntfnB]) ∧
    ([ntfnB] : List BlockNtfn) ≠ [] := by
  exact ⟨rfl, by simp⟩

/-- C9 (amended): producers append at the queue tail; each consumer
critical section removes exactly the oldest pending notification;
iterating the consumer step processes the pending notifications in FIFO
order. -/
theorem ntfn_queue_fifo :
    (∀ (q : List BlockNtfn) (n : BlockNtfn), appendBlockNtfn q n = q ++ [n]) ∧
    (∀ (n : BlockNtfn) (rest : List BlockNtfn), takeNextBlockNtfn (n :: rest) = some (n, rest)) ∧
    (∀ q : List BlockNtfn, processNtfns q = q) := by
  refine ⟨fun q n => rfl, fun n rest => rfl, ?_⟩
  have aux : ∀ (fuel : Nat) (q : List BlockNtfn), q.length ≤ fuel →
      processNtfnsAux fuel q = q := by
    intro fuel
    induction fuel with
    | zero =>
      intro q hq
      cases q with
      | nil => rfl
      | cons n rest => simp at hq
    | succ fuel ih =>
      intro q hq
      cases q with
      | nil => rfl
      | cons n rest =>
        simp only [processNtfnsAux, takeNextBlockNtfn]
        rw [ih rest (by simp at hq; omega)]
  intro q
  exact aux q.length q (Nat.le_refl _)

theorem chunkOps_append (a b : List (MsgTx × List Op)) :
    chunkOps (a ++ b) = chunkOps a ++ chunkOps b := by
  simp [chunkOps]

theorem appendOpToLast_snoc (xs : List RTransaction) (t : RTransaction) (op : Op) :
    appendOpToLast (xs ++ [t]) op = xs ++ [{ t with operations := t.operations ++ [op] }] := by
  induction xs with
  | nil => rfl
  | cons x xs ih =>
    cases xs with
    | nil => rfl
    | cons y ys =>
      have hstep : appendOpToLast (x :: y :: (ys ++ [t])) op =
          x :: appendOpToLast (y :: (ys ++ [t])) op := rfl
      simp only [List.cons_append] at ih ⊢
      rw [hstep, ih]

theorem foldl_applyOp_nonzero {t : MsgTx} :
    ∀ (ops : List Op) (acc : List RTransaction) (cur : List Op),
      (∀ op ∈ ops, op.opIndex ≠ 0 ∧ op.tx = t) →
      ops.foldl applyOpRosetta (acc ++ [{ tx := t, operations := cur }]) =
        acc ++ [{ tx := t, operations := cur ++ ops }] := by
  intro ops
  induction ops with
  | nil =>
    intro acc cur _
    simp
  | cons op rest ih =>
    intro acc cur hprop
    have h0 := (hprop op (List.mem_cons_self ..)).1
    have ht := (hprop op (List.mem_cons_self ..)).2
    have hop0 : (op.opIndex == 0) = false := by
      rw [beq_eq_false_iff_ne]
      exact h0
    have hstep : applyOpRosetta (acc ++ [{ tx := t, operations := cur }]) op =
        acc ++ [{ tx := t, operations := cur ++ [op] }] := by
      unfold applyOpRosetta
      rw [hop0]
      simp only [Bool.false_eq_true, if_false]
      exact appendOpToLast_snoc ..
    simp only [List.foldl_cons]
    rw [hstep, ih acc (cur ++ [op]) (fun o ho => hprop o (List.mem_cons_of_mem _ ho))]
    simp

theorem foldl_applyOp_chunks :
    ∀ (cs : List (MsgTx × List Op)) (acc : List RTransaction),
      (∀ c ∈ cs, opIdxSeq 0 c.2 = true ∧ ∀ op ∈ c.2, op.tx = c.1) →
      (chunkOps cs).foldl applyOpRosetta acc =
        acc ++ (cs.filter (fun c => !c.2.isEmpty)).map
          (fun c => { tx := c.1, operations := c.2 }) := by
  intro cs
  induction cs with
  | nil =>
    intro acc _
    simp [chunkOps]
  | cons c cs ih =>
    intro acc hprop
    obtain ⟨hseq, htx⟩ := hprop c (List.mem_cons_self ..)
    have hrest := fun c' hc' => hprop c' (List.mem_cons_of_mem _ hc')
    obtain ⟨t, ops⟩ := c
    have hchunk : chunkOps ((t, ops) :: cs) = ops ++ chunkOps cs := by
      simp [chunkOps]
    rw [hchunk, List.foldl_append]
    cases ops with
    | nil =>
      simp only [List.foldl_nil]
      rw [ih acc hrest]
      simp
    | cons op0 rest =>
      simp only [opIdxSeq, Bool.and_eq_true, beq_iff_eq] at hseq
      have ht0 : op0.tx = t := htx op0 (List.mem_cons_self ..)
      have hstep : applyOpRosetta acc op0 = acc ++ [{ tx := t, operations := [op0] }] := by
        unfold applyOpRosetta
        have : (op0.opIndex == 0) = true := by simp [hseq.1]
        rw [this]
        simp only [if_true]
        rw [ht0] at *
        have := appendOpToLast_snoc acc { tx := t, operations := [] } op0
        simpa using this
      simp only [List.foldl_cons]
      rw [hstep]
      rw [foldl_applyOp_nonzero rest acc [op0] (fun o ho => ⟨by
          have := opIdxSeq_ge hseq.2 o ho
          omega,
        htx o (List.mem_cons_of_mem _ ho)⟩)]
      rw [ih _ hrest]
      simp

theorem applyTxs_eq_txChunks {e : Extractor} {f : PrevInputsFetcher}
    {tree : Int} {status : OpStatus} :
    ∀ (i : Nat) (txs : List MsgTx),
      applyTxs e f tree status i txs =
        Except.map chunkOps (txChunks e f tree status i txs) := by
  intro i txs
  induction txs generalizing i with
  | nil => simp [applyTxs, txChunks, chunkOps, Except.map]
  | cons tx rest ih =>
    simp only [applyTxs, txChunks]
    cases hitx : iterateBlockOpsInTx e f tree status tx (Int.ofNat i) 0 with
    | error e1 => simp [Except.map]
    | ok p =>
      obtain ⟨n1, ops⟩ := p
      rw [ih (i + 1)]
      cases htc : txChunks e f tree status (i + 1) rest with
      | error e1 => simp [Except.map]
      | ok more => simp [Except.map, chunkOps]

theorem txChunks_ok_props {e : Extractor} {f : PrevInputsFetcher}
    {tree : Int} {status : OpStatus} :
    ∀ {i : Nat} {txs : List MsgTx} {cs : List (MsgTx × List Op)},
      txChunks e f tree status i txs = .ok cs →
      ∀ c ∈ cs, opIdxSeq 0 c.2 = true ∧ ∀ op ∈ c.2, op.tx = c.1 := by
  intro i txs
  induction txs generalizing i with
  | nil =>
    intro cs h
    simp only [txChunks, Except.ok.injEq] at h
    subst h
    simp
  | cons tx rest ih =>
    intro cs h
    simp only [txChunks] at h
    split at h
    · simp at h
    · rename_i n1 ops hitx
      split at h
      · simp at h
      · rename_i more hmore
        simp only [Except.ok.injEq] at h
        subst h
        intro c hc
        rcases List.mem_cons.mp hc with rfl | hc'
        · refine ⟨(iterateBlockOpsInTx_ok_opIdx hitx).2, fun op hop => ?_⟩
          exact (iterateBlockOpsInTx_ok_mem hitx op hop).1
        · exact ih hmore c hc'

theorem blockTxChunks_ok_inv {e : Extractor} {f : PrevInputsFetcher}
    {b : MsgBlock} {prev : Option MsgBlock} {cs : List (MsgTx × List Op)}
    (h : blockTxChunks e f b prev = .ok cs) :
    ∃ c0 c1 c2,
      txChunks e f TxTreeRegular .success 0 b.transactions = .ok c1 ∧
      txChunks e f TxTreeStake .success 0 b.sTransactions = .ok c2 ∧
      cs = c0 ++ c1 ++ c2 ∧
      (c0 = [] ∨ ∃ p, prev = some p ∧
        txChunks e f TxTreeRegular .reversed 0 p.transactions = .ok c0) := by
  simp only [blockTxChunks] at h
  split at h
  · simp at h
  · split at h
    · simp at h
    · rename_i c0 hc0
      split at h
      · simp at h
      · rename_i c1 hc1
        split at h
        · simp at h
        · rename_i c2 hc2
          simp only [Except.ok.injEq] at h
          subst h
          refine ⟨c0, c1, c2, hc1, hc2, rfl, ?_⟩
          split at hc0
          · split at hc0
            · rename_i p hguard
              exact Or.inr ⟨p, rfl, hc0⟩
            · simp at hc0
          · simp only [Except.ok.injEq] at hc0
            exact Or.inl hc0.symm

theorem blockTxChunks_ok_props {e : Extractor} {f : PrevInputsFetcher}
    {b : MsgBlock} {prev : Option MsgBlock} {cs : List (MsgTx × List Op)}
    (h : blockTxChunks e f b prev = .ok cs) :
    ∀ c ∈ cs, opIdxSeq 0 c.2 = true ∧ ∀ op ∈ c.2, op.tx = c.1 := by
  obtain ⟨c0, c1, c2, hc1, hc2, rfl, hdisj⟩ := blockTxChunks_ok_inv h
  intro c hcmem
  rcases List.mem_append.mp hcmem with h01 | h2
  · rcases List.mem_append.mp h01 with h0 | h1
    · rcases hdisj with rfl | ⟨p, _, hc0⟩
      · simp at h0
      · exact txChunks_ok_props hc0 c h0
    · exact txChunks_ok_props hc1 c h1
  · exact txChunks_ok_props hc2 c h2

theorem blockTxChunks_ok_iterate {e : Extractor} {f : PrevInputsFetcher}
    {b : MsgBlock} {prev : Option MsgBlock} {cs : List (MsgTx × List Op)}
    (h : blockTxChunks e f b prev = .ok cs) :
    IterateBlockOps e f b prev = .ok (chunkOps cs) := by
  simp only [blockTxChunks] at h
  simp only [IterateBlockOps]
  cases hnap : (VoteBitsApprovesParent b.header.voteBits || b.header.height == 0) with
  | true =>
    rw [hnap] at h
    simp only [Bool.not_true, Bool.false_and, Bool.false_eq_true, if_false] at h ⊢
    cases hc1 : txChunks e f TxTreeRegular OpStatus.success 0 b.transactions with
    | error e1 =>
      rw [hc1] at h
      simp at h
    | ok c1 =>
      rw [hc1] at h
      cases hc2 : txChunks e f TxTreeStake OpStatus.success 0 b.sTransactions with
      | error e2 =>
        rw [hc2] at h
        simp at h
      | ok c2 =>
        rw [hc2] at h
        simp only [Except.ok.injEq] at h
        subst h
        rw [applyTxs_eq_txChunks, hc1, applyTxs_eq_txChunks, hc2]
        simp [Except.map, chunkOps_append]
  | false =>
    cases prev with
    | none =>
      rw [hnap] at h
      simp at h
    | some p =>
      rw [hnap] at h
      simp only [Bool.not_false, Bool.true_and, Option.isNone_some, Bool.and_false,
        Bool.false_eq_true, if_false, if_true] at h ⊢
      cases hc0 : txChunks e f TxTreeRegular OpStatus.reversed 0 p.transactions with
      | error e0 =>
        rw [hc0] at h
        simp at h
      | ok c0 =>
        rw [hc0] at h
        cases hc1 : txChunks e f TxTreeRegular OpStatus.success 0 b.transactions with
        | error e1 =>
          rw [hc1] at h
          simp at h
        | ok c1 =>
          rw [hc1] at h
          cases hc2 : txChunks e f TxTreeStake OpStatus.success 0 b.sTransactions with
          | error e2 =>
            rw [hc2] at h
            simp at h
          | ok c2 =>
            rw [hc2] at h
            simp only [Except.ok.injEq] at h
            subst h
            rw [applyTxs_eq_txChunks, hc0, applyTxs_eq_txChunks, hc1,
              applyTxs_eq_txChunks, hc2]
            simp [Except.map, chunkOps_append]

/-- C10: the transactions of a Rosetta block are exactly the
per-transaction projection chunks that emitted at least one operation,
in emission order, each holding its emitted operations; a transaction
that emitted no operation does not appear. -/
theorem rosetta_transactions_nonempty {e : Extractor} {f : PrevInputsFetcher}
    {hashFn : BlockHeader → Nat} {b : MsgBlock} {prev : Option MsgBlock} {r : RBlock}
    {cs : List (MsgTx × List Op)}
    (hw : WireBlockToRosetta e f hashFn b prev = .ok r)
    (hc : blockTxChunks e f b prev = .ok cs) :
    r.transactions = (cs.filter (fun c => !c.2.isEmpty)).map
      (fun c => { tx := c.1, operations := c.2 }) := by
  have hit := blockTxChunks_ok_iterate hc
  simp only [WireBlockToRosetta] at hw
  split at hw
  · simp at hw
  · rw [hit] at hw
    simp only [Except.ok.injEq] at hw
    subst hw
    exact foldl_applyOp_chunks cs [] (blockTxChunks_ok_props hc)

theorem rosetta_transactions_nonempty_witness :
    rBlockWithEmptyTx.transactions =
      (([(txCoinbase, [opCreditCoinbase]), (txAllZero, ([] : List Op))].filter
        (fun c => !c.2.isEmpty)).map (fun c => { tx := c.1, operations := c.2 })) :=
  @rosetta_transactions_nonempty extractOne (fetchConst [(outPt0, prevIn0)]) hashByHeight
    blockWithEmptyTx none rBlockWithEmptyTx
    [(txCoinbase, [opCreditCoinbase]), (txAllZero, [])] rfl rfl

end Dcrros
